import Mathlib

/-!
Verification of the Ontology subsystem of the OpenOmics repository
(`openomics/database/ontology.py`), via a shallow embedding in Lean 4.

Terms are strings; the ontology network is a directed multigraph whose
edges carry a string key (the relation type, e.g. "is_a").  Pandas
Series of annotation cells are embedded as Lean lists; cells can be a
Python list, a string, or a null value (NaN/None).  Fallible Python code
is embedded with Except/Option.
-/

namespace OpenOmics

/-- Python substring test helper: does the character list begin with the needle? -/
def charsPre : List Char → List Char → Bool
  | [], _ => true
  | _ :: _, [] => false
  | a :: as, b :: bs => a == b && charsPre as bs

/-- Python substring test helper on character lists (needle occurs inside hay). -/
def charsSub (needle : List Char) : List Char → Bool
  | [] => charsPre needle []
  | c :: cs => charsPre needle (c :: cs) || charsSub needle cs

/-- Embeds the Python expression `needle in hay` for strings (substring test). -/
def pyIn (needle hay : String) : Bool := charsSub needle.data hay.data

/-- Embeds Python `s.endswith(suffix)` for strings. -/
def pyEndsWith (s suffix : String) : Bool := charsPre suffix.data.reverse s.data.reverse

/-- Deduplication keeping the FIRST occurrence of each element
(the order `pandas.unique` and dict-backed groupby keys use). -/
def firstDedupAux {α : Type} [DecidableEq α] (seen : List α) : List α → List α
  | [] => []
  | x :: xs => if x ∈ seen then firstDedupAux seen xs else x :: firstDedupAux (x :: seen) xs

/-- Deduplication keeping the first occurrence of each element. -/
def firstDedup {α : Type} [DecidableEq α] (l : List α) : List α := firstDedupAux [] l

/-- A directed multigraph as networkx's `MultiDiGraph` stores it: a node list in
insertion order, and a list of keyed edges `(u, v, key)` meaning an edge u → v
labelled `key`. -/
structure MDiGraph where
  nodes : List String
  edges : List (String × String × String)
  deriving DecidableEq, Repr

/-- The empty multigraph. -/
def MDiGraph.empty : MDiGraph := ⟨[], []⟩

/-- `G.add_node(n)`: appends the node if it is not already present
(networkx keeps the first insertion position). -/
def MDiGraph.addNode (g : MDiGraph) (n : String) : MDiGraph :=
  if n ∈ g.nodes then g else { g with nodes := g.nodes ++ [n] }

/-- `G.add_edge(u, v, key=k)` on a `MultiDiGraph`: adds missing endpoint nodes, and
adds the keyed edge; re-adding an existing `(u, v, key)` triple only updates its
data and does not create a parallel edge. -/
def MDiGraph.addEdge (g : MDiGraph) (u v k : String) : MDiGraph :=
  let g1 := (g.addNode u).addNode v
  if (u, v, k) ∈ g1.edges then g1 else { g1 with edges := g1.edges ++ [(u, v, k)] }

/-- Well-formedness invariant every networkx graph satisfies: edge endpoints are nodes. -/
def MDiGraph.Wf (g : MDiGraph) : Prop :=
  ∀ e ∈ g.edges, e.1 ∈ g.nodes ∧ e.2.1 ∈ g.nodes

instance (g : MDiGraph) : Decidable g.Wf := by
  unfold MDiGraph.Wf; infer_instance

/-! ## InterPro.parse_ipr_treefile

The indentation-tree parser.  Each line is `dashes ++ "ID::Name::..."`; the
number of leading dashes is the depth.  Depth 0 resets the ancestor stack;
an increase pushes the previous node; a decrease deletes ONE stack entry
(`del stack[-1]`).  The edge added is `graph.add_edge(parent, interpro_id,
key="is_a")`, i.e. parent → child.  Malformed situations that raise in
Python (too few `::` fields, empty stack, `None` used as a node) are
embedded as `none`. -/

/-- `count_front`: number of leading dash characters of a line. -/
def count_front (s : String) : Nat := (s.data.takeWhile (fun c => c == '-')).length

/-- Python `str.split("::")` on a character list (leftmost, non-overlapping);
`cur` is the reversed current field. -/
def splitColons (cur : List Char) : List Char → List String
  | ':' :: ':' :: rest => String.mk cur.reverse :: splitColons [] rest
  | c :: rest => splitColons (c :: cur) rest
  | [] => [String.mk cur.reverse]

/-- Parser state: the graph built so far, the previous line's depth and id, and the
ancestor stack (whose initial content is the Python `None`, hence `Option`). -/
structure IprState where
  graph : MDiGraph
  prevDepth : Nat
  prevName : Option String
  stack : List (Option String)

/-- One line of `InterPro.parse_ipr_treefile`. -/
def parse_ipr_line (st : IprState) (line : String) : Option IprState := do
  let depth := count_front line
  let rest := line.data.drop depth
  match splitColons [] rest with
  | interproId :: _name :: _ =>
    if depth == 0 then
      some { graph := st.graph.addNode interproId
             prevDepth := depth
             prevName := some interproId
             stack := [some interproId] }
    else
      let stack1 :=
        if depth > st.prevDepth then st.stack ++ [st.prevName]
        else if depth < st.prevDepth then st.stack.dropLast
        else st.stack
      match stack1.getLast? with
      | some (some parent) =>
        some { graph := (st.graph.addNode interproId).addEdge parent interproId "is_a"
               prevDepth := depth
               prevName := some interproId
               stack := stack1 }
      | _ => none
  | _ => none

/-- `InterPro.parse_ipr_treefile`: folds the line parser over the input lines. -/
def parse_ipr_treefile (lines : List String) : Option MDiGraph := do
  let st0 : IprState := ⟨MDiGraph.empty, 0, none, [none]⟩
  let stFinal ← lines.foldlM parse_ipr_line st0
  some stFinal.graph

/-! ## Root and leaf queries

`Ontology.get_root_nodes` keeps the nodes whose adjacency-matrix row sum is
zero, i.e. the nodes with no outgoing edge; `Ontology.get_child_nodes` keeps
those whose column sum is zero, i.e. no incoming edge.  The adjacency matrix
is taken over the full node list. -/

/-- `Ontology.get_root_nodes`: nodes with no outgoing edge (zero row sum). -/
def get_root_nodes (g : MDiGraph) : List String :=
  g.nodes.filter (fun n => !(g.edges.any (fun e => e.1 == n)))

/-- `Ontology.get_child_nodes`: nodes with no incoming edge (zero column sum). -/
def get_child_nodes (g : MDiGraph) : List String :=
  g.nodes.filter (fun n => !(g.edges.any (fun e => e.2.1 == n)))

/-! ## Reachability: `networkx.ancestors`

`nx.ancestors(g, t)` returns every node with a (directed) path to `t`,
excluding `t` itself.  We compute it as a backward closure: starting from
`{t}`, repeatedly add the sources of edges whose target is already in the
set.  `g.edges.length + 1` rounds saturate the closure, which we prove and
then use to characterise membership by `Relation.ReflTransGen`. -/

/-- The one-step edge relation of a multigraph (ignoring the key). -/
def edgeRel (g : MDiGraph) (u v : String) : Prop := ∃ k, (u, v, k) ∈ g.edges

/-- Sources of edges into the current set that are not yet in the set. -/
def newSrcs (g : MDiGraph) (s : List String) : List String :=
  (((g.edges.filter (fun e => decide (e.2.1 ∈ s))).map (fun e => e.1)).filter
    (fun u => decide (u ∉ s))).dedup

/-- One round of the backward closure. -/
def stepPred (g : MDiGraph) (s : List String) : List String := s ++ newSrcs g s

/-- Backward-reachable set of `t` (including `t`), fully saturated. -/
def reachList (g : MDiGraph) (t : String) : List String :=
  (stepPred g)^[g.edges.length + 1] [t]

/-- `nx.ancestors(g, t)`: nodes with a path to `t`, excluding `t` itself. -/
def pyAncestors (g : MDiGraph) (t : String) : List String :=
  (reachList g t).filter (fun x => decide (x ≠ t))

lemma mem_stepPred_of_mem {g : MDiGraph} {s : List String} {x : String}
    (hx : x ∈ s) : x ∈ stepPred g s :=
  List.mem_append_left _ hx

lemma mem_newSrcs {g : MDiGraph} {s : List String} {x : String} :
    x ∈ newSrcs g s ↔ (∃ e ∈ g.edges, e.1 = x ∧ e.2.1 ∈ s) ∧ x ∉ s := by
  unfold newSrcs
  simp only [List.mem_dedup, List.mem_filter, List.mem_map, decide_eq_true_eq]
  aesop

lemma mem_stepPred {g : MDiGraph} {s : List String} {x : String} :
    x ∈ stepPred g s ↔ x ∈ s ∨ ((∃ e ∈ g.edges, e.1 = x ∧ e.2.1 ∈ s) ∧ x ∉ s) := by
  unfold stepPred
  rw [List.mem_append, mem_newSrcs]

/-- If the closure did not grow, it did not change. -/
lemma stepPred_length_lt {g : MDiGraph} {s : List String}
    (h : stepPred g s ≠ s) : s.length < (stepPred g s).length := by
  unfold stepPred at *
  cases hn : newSrcs g s with
  | nil => exact absurd (by simp [hn]) h
  | cons a l =>
    simp [List.length_append]

lemma stepPred_fix_iterate {g : MDiGraph} {s : List String}
    (h : stepPred g s = s) : ∀ n, (stepPred g)^[n] s = s := by
  intro n
  induction n with
  | zero => rfl
  | succ n ih => rw [Function.iterate_succ_apply, h, ih]

/-- Members of an iterated closure of `[t]` are `t` or an edge source. -/
lemma iterate_subset_support (g : MDiGraph) (t : String) :
    ∀ n, ∀ x ∈ (stepPred g)^[n] [t], x = t ∨ x ∈ g.edges.map (fun e => e.1) := by
  intro n
  induction n with
  | zero => intro x hx; left; simpa using hx
  | succ n ih =>
    intro x hx
    rw [Function.iterate_succ_apply'] at hx
    rcases mem_stepPred.1 hx with hx | ⟨⟨e, he, rfl, _⟩, _⟩
    · exact ih x hx
    · exact Or.inr (List.mem_map.2 ⟨e, he, rfl⟩)

/-- The iterated closure has no duplicates. -/
lemma iterate_nodup (g : MDiGraph) (t : String) :
    ∀ n, ((stepPred g)^[n] [t]).Nodup := by
  intro n
  induction n with
  | zero => simp
  | succ n ih =>
    rw [Function.iterate_succ_apply']
    unfold stepPred
    refine List.Nodup.append ih (List.nodup_dedup _) ?_
    intro a ha hb
    exact (mem_newSrcs.1 hb).2 ha

/-- Size bound for the iterated closure. -/
lemma iterate_length_le (g : MDiGraph) (t : String) (n : Nat) :
    ((stepPred g)^[n] [t]).length ≤ g.edges.length + 1 := by
  set l := (stepPred g)^[n] [t] with hl
  have hnd : l.Nodup := iterate_nodup g t n
  have hsub : l.toFinset ⊆ insert t (g.edges.map (fun e => e.1)).toFinset := by
    intro x hx
    rcases iterate_subset_support g t n x (List.mem_toFinset.1 hx) with rfl | hx2
    · exact Finset.mem_insert_self _ _
    · exact Finset.mem_insert_of_mem (List.mem_toFinset.2 hx2)
  have h1 : l.length = l.toFinset.card := (List.toFinset_card_of_nodup hnd).symm
  have h2 : l.toFinset.card ≤ (insert t (g.edges.map (fun e => e.1)).toFinset).card :=
    Finset.card_le_card hsub
  have h3 : (insert t (g.edges.map (fun e => e.1)).toFinset).card ≤
      (g.edges.map (fun e => e.1)).toFinset.card + 1 := Finset.card_insert_le _ _
  have h4 : (g.edges.map (fun e => e.1)).toFinset.card ≤ (g.edges.map (fun e => e.1)).length :=
    List.toFinset_card_le _
  have h5 : (g.edges.map (fun e => e.1)).length = g.edges.length := List.length_map _ _
  omega

/-- Either the closure is already a fixpoint, or it has grown to size at least n + 1. -/
lemma iterate_fix_or_grow (g : MDiGraph) (t : String) :
    ∀ n, stepPred g ((stepPred g)^[n] [t]) = (stepPred g)^[n] [t] ∨
      n + 1 ≤ ((stepPred g)^[n] [t]).length := by
  intro n
  induction n with
  | zero => right; simp
  | succ n ih =>
    rcases ih with hfix | hlen
    · left
      rw [Function.iterate_succ_apply', hfix, hfix]
    · by_cases h : stepPred g ((stepPred g)^[n + 1] [t]) = (stepPred g)^[n + 1] [t]
      · exact Or.inl h
      · right
        rw [Function.iterate_succ_apply']
        by_cases h2 : stepPred g ((stepPred g)^[n] [t]) = (stepPred g)^[n] [t]
        · exfalso
          apply h
          rw [Function.iterate_succ_apply', h2, h2]
        · have := stepPred_length_lt h2
          omega

/-- The reach set is saturated: one more closure round does not change it. -/
lemma reachList_fix (g : MDiGraph) (t : String) :
    stepPred g (reachList g t) = reachList g t := by
  rcases iterate_fix_or_grow g t (g.edges.length + 1) with h | h
  · exact h
  · have := iterate_length_le g t (g.edges.length + 1)
    omega

lemma self_mem_reachList (g : MDiGraph) (t : String) : t ∈ reachList g t := by
  unfold reachList
  induction (g.edges.length + 1) with
  | zero => simp
  | succ n ih =>
    rw [Function.iterate_succ_apply']
    exact mem_stepPred_of_mem ih

/-- Soundness: everything in the reach set has a path to `t`. -/
lemma reachList_sound (g : MDiGraph) (t : String) :
    ∀ x ∈ reachList g t, Relation.ReflTransGen (edgeRel g) x t := by
  unfold reachList
  induction (g.edges.length + 1) with
  | zero =>
    intro x hx
    simp only [Function.iterate_zero, id_eq, List.mem_singleton] at hx
    exact hx ▸ Relation.ReflTransGen.refl
  | succ n ih =>
    intro x hx
    rw [Function.iterate_succ_apply'] at hx
    rcases mem_stepPred.1 hx with hx | ⟨⟨e, he, rfl, htgt⟩, _⟩
    · exact ih x hx
    · exact Relation.ReflTransGen.head ⟨e.2.2, by simpa using he⟩ (ih _ htgt)

/-- Completeness: every node with a path to `t` is in the reach set. -/
lemma reachList_complete (g : MDiGraph) (t : String) {x : String}
    (h : Relation.ReflTransGen (edgeRel g) x t) : x ∈ reachList g t := by
  induction h using Relation.ReflTransGen.head_induction_on with
  | refl => exact self_mem_reachList g t
  | head hstep _htail ih =>
    rename_i a b
    rw [← reachList_fix g t]
    rcases mem_stepPred (g := g) (s := reachList g t) (x := a) with ⟨_, hback⟩
    by_cases ha : a ∈ reachList g t
    · exact mem_stepPred_of_mem ha
    · obtain ⟨k, hk⟩ := hstep
      exact hback (Or.inr ⟨⟨(a, b, k), hk, rfl, ih⟩, ha⟩)

/-- Membership in `nx.ancestors(g, t)`: a proper predecessor with a path to `t`. -/
lemma mem_pyAncestors {g : MDiGraph} {t x : String} :
    x ∈ pyAncestors g t ↔ Relation.ReflTransGen (edgeRel g) x t ∧ x ≠ t := by
  unfold pyAncestors
  rw [List.mem_filter]
  constructor
  · rintro ⟨h1, h2⟩
    exact ⟨reachList_sound g t x h1, by simpa using h2⟩
  · rintro ⟨h1, h2⟩
    exact ⟨reachList_complete g t h1, by simpa using h2⟩

/-! ## Graph Store: `Ontology.get_subgraph` and `Ontology.filter_network`

`get_subgraph` keeps a `_subgraphs` cache created lazily on first use
(`hasattr` test).  For a multigraph and a truthy `edge_types` it takes the
edge subgraph of the edges whose key `k` satisfies the Python expression
`k in edge_types`; for a single string argument this is a SUBSTRING test.
`filter_network` replaces the network by an induced subgraph and rewrites
the node list, leaving the cache untouched.  Every loader in the file
builds a `nx.MultiDiGraph`, so `isMulti` records the `isinstance` test. -/

/-- The mutable state of an `Ontology` object that `get_subgraph` and
`filter_network` touch: the canonical network, whether it is a multigraph,
the node list, and the lazily created `_subgraphs` cache. -/
structure OntStore where
  network : MDiGraph
  isMulti : Bool
  node_list : List String
  subgraphsInit : Bool
  subgraphs : List (String × MDiGraph)
  deriving DecidableEq, Repr

/-- A freshly constructed store (no `_subgraphs` attribute yet). -/
def mkStore (g : MDiGraph) : OntStore := ⟨g, true, g.nodes, false, []⟩

/-- `nx.edge_subgraph` over the edges whose key `k` satisfies `k in edge_types`
(Python substring test for a string argument): the matching edges plus their
endpoint nodes, in the original orders. -/
def edgeSubgraphOf (g : MDiGraph) (edge_types : String) : MDiGraph :=
  let es := g.edges.filter (fun e => pyIn e.2.2 edge_types)
  ⟨g.nodes.filter (fun n => es.any (fun e => e.1 == n || e.2.1 == n)), es⟩

/-- `Ontology.get_subgraph(edge_types)` for a string argument: consults the
cache, else computes the edge subgraph (or returns the network unchanged when
`edge_types` is falsy or the network is not a multigraph) and caches it. -/
def get_subgraph (st : OntStore) (edge_types : String) : MDiGraph × OntStore :=
  let base := if st.subgraphsInit then st.subgraphs else []
  match if st.subgraphsInit then List.lookup edge_types st.subgraphs else none with
  | some g => (g, st)
  | none =>
    let g := if edge_types ≠ "" && st.isMulti then edgeSubgraphOf st.network edge_types
             else st.network
    (g, { st with subgraphsInit := true, subgraphs := base ++ [(edge_types, g)] })

/-- `nx.subgraph(nodes=terms)`: the subgraph induced on the given node set. -/
def inducedSubgraph (g : MDiGraph) (terms : List String) : MDiGraph :=
  ⟨g.nodes.filter (fun n => terms.contains n),
   g.edges.filter (fun e => terms.contains e.1 && terms.contains e.2.1)⟩

/-- `Ontology.filter_network(namespace)` after the term list has been computed:
replaces the network by the induced subgraph and the node list by the terms.
The `_subgraphs` cache is NOT touched. -/
def filter_network (st : OntStore) (terms : List String) : OntStore :=
  { st with network := inducedSubgraph st.network terms, node_list := terms }

/-! ## Annotation cells and `get_predecessor_terms` / `add_predecessor_terms`

A pandas annotation Series is a list of cells; a cell is a Python list of
terms, a string, or a null (NaN/None).  `get_predecessor_terms(g, anns)`
first converts every cell with `list(...)` if ANY cell is not a
list/ndarray (`list` of a string explodes it into characters, `list` of a
null raises `TypeError`), then tries to map every cell to the set of
`nx.ancestors` of its terms; `nx.ancestors` raises when a term is not a
node of `g`, in which case the `except` branch returns the (possibly
converted) Series itself.  `Ontology.add_predecessor_terms` adds that
result elementwise (list concatenation) to the Series with non-list cells
replaced by `[]`. -/

/-- A pandas cell: a Python list of terms, a string, or a null value. -/
inductive PyCell where
  | list (terms : List String)
  | str (s : String)
  | nan
  deriving DecidableEq, Repr

/-- The Python exceptions this embedding distinguishes. -/
inductive PyErr where
  | typeError
  deriving DecidableEq, Repr

instance exceptDecEq {ε α : Type} [DecidableEq ε] [DecidableEq α] :
    DecidableEq (Except ε α) := fun x y =>
  match x, y with
  | .ok a, .ok b =>
    if h : a = b then isTrue (by rw [h])
    else isFalse (fun hh => h (Except.ok.inj hh))
  | .error a, .error b =>
    if h : a = b then isTrue (by rw [h])
    else isFalse (fun hh => h (Except.error.inj hh))
  | .ok _, .error _ => isFalse (fun hh => Except.noConfusion hh)
  | .error _, .ok _ => isFalse (fun hh => Except.noConfusion hh)

/-- Is the cell a Python `list` (or `np.ndarray`)? -/
def PyCell.isList : PyCell → Bool
  | .list _ => true
  | _ => false

/-- The terms of a list cell; `[]` for anything else (the
`lambda x: [] if not isinstance(x, (list, np.ndarray)) else x` map). -/
def PyCell.cellTerms : PyCell → List String
  | .list l => l
  | _ => []

/-- Python `list(x)` on a cell: identity on lists, explodes a string into its
characters, raises `TypeError` on a null value. -/
def pyListOfCell : PyCell → Except PyErr PyCell
  | .list l => .ok (.list l)
  | .str s => .ok (.list (s.data.map (fun c => String.mk [c])))
  | .nan => .error .typeError

/-- The deduplicated union set `{parent for term in li for parent in
nx.ancestors(g, term)}`, in a canonical order (Python iterates a set in an
unspecified order). -/
def ancUnion (g : MDiGraph) (li : List String) : List String :=
  (li.flatMap (fun term => pyAncestors g term)).dedup

/-- Does mapping `nx.ancestors` over the cells raise, i.e. does some list cell
contain a term that is not a node of `g`? -/
def hasMissingTerm (g : MDiGraph) (cells : List PyCell) : Bool :=
  cells.any (fun c => match c with
    | .list l => l.any (fun t => !(g.nodes.contains t))
    | _ => false)

/-- `get_predecessor_terms(g, anns)` for a Series argument. -/
def get_predecessor_terms (g : MDiGraph) (cells : List PyCell) : Except PyErr (List PyCell) :=
  match (if cells.any (fun c => !c.isList) then cells.mapM pyListOfCell else .ok cells) with
  | .error e => .error e
  | .ok cs =>
    if hasMissingTerm g cs then .ok cs
    else .ok (cs.map (fun c => match c with
      | .list l => .list (ancUnion g l)
      | _ => .list []))

/-- `Ontology.add_predecessor_terms(anns, edge_type)`: elementwise list sum of
the non-list-blanked Series with the `get_predecessor_terms` result over the
(freshly computed) edge-type subgraph. -/
def add_predecessor_terms (net : MDiGraph) (edge_type : String) (cells : List PyCell) :
    Except PyErr (List PyCell) :=
  let g := (get_subgraph (mkStore net) edge_type).1
  match get_predecessor_terms g cells with
  | .error e => .error e
  | .ok rights =>
    .ok (List.zipWith (fun c r => PyCell.list (c.cellTerms ++ r.cellTerms)) cells rights)

/-! ## Temporal Splitter: `GeneOntology.split_annotations`

A GAF annotation record carries the source entity, the target term, the
qualifier list, the evidence code and a timestamp (embedded as `Int`).
`split_annotations` filters by evidence (and optionally by target term),
cuts three time windows, and per window separates negated records
(qualifier containing "NOT"), aggregates per `(src, joined qualifier)`
group, drops blank-source rows, suppresses a sole "GO:0005515" positive
annotation, drops all-null rows and reconciles negatives against
positives.  The default `groupby=["Qualifier"]` with the source column
prepended is embedded; the aggregator is a parameter (`"unique"` is
`uniqueAgg`). -/

/-- One gene-annotation record (the columns `split_annotations` reads). -/
structure GafAnn where
  src : String
  go_id : String
  qualifier : List String
  evidence : String
  date : Int
  deriving DecidableEq, Repr

/-- One output row: the group key (source entity, cleaned qualifier) with the
positive and negative term cells (a missing side of the outer join is null). -/
structure SplitRow where
  src : String
  qual : String
  pos : Option (List String)
  neg : Option (List String)
  deriving DecidableEq, Repr

/-- The terms of an aggregated cell; a null cell has none. -/
def cellOf : Option (List String) → List String
  | none => []
  | some l => l

/-- `"NOT" in li` for the qualifier list of a record. -/
def isNegAnn (r : GafAnn) : Bool := r.qualifier.contains "NOT"

/-- `"".join([i for i in li if i != "NOT"])`. -/
def joinQual (r : GafAnn) : String := String.join (r.qualifier.filter (fun q => q ≠ "NOT"))

/-- The `"unique"` aggregator: unique values in order of first appearance. -/
def uniqueAgg (l : List String) : Option (List String) := some (firstDedup l)

/-- Evidence filter plus optional target-term filter (`isin`). -/
def filter_anns (filter_evidence : List String) (filter_dst : Option (List String))
    (anns : List GafAnn) : List GafAnn :=
  (anns.filter (fun r => filter_evidence.contains r.evidence)).filter
    (fun r => match filter_dst with
      | none => true
      | some dst => dst.contains r.go_id)

/-- The train window: `Date <= train_date`. -/
def train_window (filter_evidence : List String) (filter_dst : Option (List String))
    (train_date : Int) (anns : List GafAnn) : List GafAnn :=
  (filter_anns filter_evidence filter_dst anns).filter (fun r => decide (r.date ≤ train_date))

/-- The validation window: `train_date < Date <= valid_date`. -/
def valid_window (filter_evidence : List String) (filter_dst : Option (List String))
    (train_date valid_date : Int) (anns : List GafAnn) : List GafAnn :=
  (filter_anns filter_evidence filter_dst anns).filter
    (fun r => decide (r.date ≤ valid_date) && decide (train_date < r.date))

/-- The test window: `valid_date < Date <= test_date`, or the validation window
itself when `test_date` is falsy. -/
def test_window (filter_evidence : List String) (filter_dst : Option (List String))
    (train_date valid_date : Int) (test_date : Option Int) (anns : List GafAnn) :
    List GafAnn :=
  match test_date with
  | some td => (filter_anns filter_evidence filter_dst anns).filter
      (fun r => decide (r.date ≤ td) && decide (valid_date < r.date))
  | none => valid_window filter_evidence filter_dst train_date valid_date anns

/-- Group a record list by `(src, cleaned qualifier)` and aggregate the `go_id`
column of each group, keys in order of first appearance. -/
def groupAgg (agg : List String → Option (List String)) (rs : List GafAnn) :
    List ((String × String) × Option (List String)) :=
  (firstDedup (rs.map (fun r => (r.src, joinQual r)))).map
    (fun k => (k, agg ((rs.filter (fun r => (r.src, joinQual r) = k)).map (fun r => r.go_id))))

/-- `_remove_dup_neg_go_id`: when neither cell is null, drop from the negative
list every term present in the positive list; an emptied negative list becomes
null. -/
def remove_dup_neg_go_id (row : SplitRow) : SplitRow :=
  match row.pos, row.neg with
  | some pos, some neg =>
    let kept := neg.filter (fun t => !(pos.contains t))
    { row with neg := if kept = [] then none else some kept }
  | _, _ => row

/-- `len(li) == 1 and "GO:0005515" in li`. -/
def excludeSingleProteinBinding : Option (List String) → Bool
  | some l => l.length == 1 && l.contains "GO:0005515"
  | none => false

/-- The per-window body of `split_annotations`: split by negation, aggregate
both sides, outer-join on the group keys, drop blank-source rows, suppress a
sole "GO:0005515" positive cell, drop all-null rows, reconcile. -/
def processWindow (agg : List String → Option (List String)) (rs : List GafAnn) :
    List SplitRow :=
  let posRecs := rs.filter (fun r => !(isNegAnn r))
  let negRecs := rs.filter (fun r => isNegAnn r)
  let posTab := groupAgg agg posRecs
  let negTab := groupAgg agg negRecs
  let keys := firstDedup ((posTab.map (fun p => p.1)) ++ (negTab.map (fun p => p.1)))
  let joined := keys.map (fun k =>
    { src := k.1, qual := k.2
      pos := (List.lookup k posTab).join
      neg := (List.lookup k negTab).join : SplitRow })
  let dropped := joined.filter (fun row => row.src ≠ "")
  let suppressed := dropped.map (fun row =>
    if excludeSingleProteinBinding row.pos then { row with pos := none } else row)
  let nonNull := suppressed.filter (fun row => !(row.pos = none && row.neg = none))
  nonNull.map remove_dup_neg_go_id

/-- `GeneOntology.split_annotations` with the default grouping, returning the
train/valid/test tables. -/
def split_annotations (agg : List String → Option (List String))
    (filter_evidence : List String) (filter_dst : Option (List String))
    (train_date valid_date : Int) (test_date : Option Int) (anns : List GafAnn) :
    List SplitRow × List SplitRow × List SplitRow :=
  (processWindow agg (train_window filter_evidence filter_dst train_date anns),
   processWindow agg (valid_window filter_evidence filter_dst train_date valid_date anns),
   processWindow agg (test_window filter_evidence filter_dst train_date valid_date test_date anns))

/-! ## Path tables: `filter_dfs_paths`

A path table is a rectangular pandas DataFrame with `ncols` columns, one row
per root-to-leaf path padded with nulls.  For every column except the last,
`filter_dfs_paths` drops the rows whose value in that column is non-null,
duplicates an EARLIER row's value in the same column (`duplicated(keep="first")`),
and whose next column is null; the masks are all computed on the input table. -/

/-- A path row: one optional term per column. -/
def PathRow := List (Option String)

instance : DecidableEq PathRow := by
  unfold PathRow; infer_instance

/-- The cell of a row at a column (null when the row is shorter). -/
def cellAt (r : PathRow) (c : Nat) : Option String := (r.get? c).join

/-- The keep-mask of `filter_dfs_paths` for the row at position `i`. -/
def pathRowKept (rows : List PathRow) (ncols i : Nat) (r : PathRow) : Bool :=
  (List.range (ncols - 1)).all (fun c =>
    !((cellAt r c).isSome &&
      ((rows.take i).any (fun p => cellAt p c == cellAt r c)) &&
      (cellAt r (c + 1)).isNone))

/-- `filter_dfs_paths(paths_df)`. -/
def filter_dfs_paths (ncols : Nat) (rows : List PathRow) : List PathRow :=
  (rows.enum.filter (fun p => pathRowKept rows ncols p.1 p.2)).map (fun p => p.2)

/-! ## Graph Loaders: `InterPro.load_network` and `GeneOntology.load_network`

A file-resources entry maps a logical name to a resource; the InterPro loader
looks for a name containing "ParentChildTreeFile" whose value is a string
path that exists on disk, parses it and returns the graph with its node list,
and otherwise returns the pair `(None, None)` (embedded as `none`) — it does
not raise.  The GeneOntology loader reads the LAST file whose name ends in
".obo" through the external `obonet` parser (a parameter here) and reverses
it; when no such file exists, the final `return network, node_list` hits
unassigned locals and raises `UnboundLocalError`. -/

/-- A file resource: whether the mapped value is a string path, whether that
path exists on disk, and the text lines behind it. -/
structure FileRes where
  isStrPath : Bool
  existsOnDisk : Bool
  lines : List String
  deriving DecidableEq, Repr

/-- Does a file-resources entry trigger the InterPro hierarchy branch? -/
def iprTreeMatch (p : String × FileRes) : Bool :=
  pyIn "ParentChildTreeFile" p.1 && p.2.isStrPath && p.2.existsOnDisk

/-- `InterPro.load_network(file_resources)`: `.ok none` is the Python
`return None, None`; a parse failure propagates as an error. -/
def InterPro_load_network (frs : List (String × FileRes)) :
    Except PyErr (Option (MDiGraph × List String)) :=
  match frs.find? iprTreeMatch with
  | some p =>
    match parse_ipr_treefile p.2.lines with
    | some g => .ok (some (g, g.nodes))
    | none => .error .typeError
  | none => .ok none

/-- `G.reverse(copy=True)`: flip every edge. -/
def reverseGraph (g : MDiGraph) : MDiGraph :=
  ⟨g.nodes, g.edges.map (fun e => (e.2.1, e.1, e.2.2))⟩

/-- `GeneOntology.load_network(file_resources)`: `obonet.read_obo` is external
and passed as a parameter; the loop keeps the last ".obo" match; with no match
the trailing `return` raises `UnboundLocalError` on `network`. -/
def GeneOntology_load_network (readObo : List String → MDiGraph)
    (frs : List (String × FileRes)) : Except String (MDiGraph × List String) :=
  match (frs.filter (fun p => pyEndsWith p.1 ".obo")).getLast? with
  | some p =>
    let g := reverseGraph (readObo p.2.lines)
    .ok (g, g.nodes)
  | none => .error "UnboundLocalError"

/-! ## Lemmas about the ancestor propagation -/

/-- Membership in the deduplicated ancestor union of a term list. -/
lemma mem_ancUnion {g : MDiGraph} {l : List String} {t : String} :
    t ∈ ancUnion g l ↔ ∃ s ∈ l, t ≠ s ∧ Relation.ReflTransGen (edgeRel g) t s := by
  unfold ancUnion
  rw [List.mem_dedup, List.mem_flatMap]
  constructor
  · rintro ⟨s, hs, ht⟩
    rcases mem_pyAncestors.1 ht with ⟨h1, h2⟩
    exact ⟨s, hs, h2, h1⟩
  · rintro ⟨s, hs, h2, h1⟩
    exact ⟨s, hs, mem_pyAncestors.2 ⟨h1, h2⟩⟩

lemma ancUnion_nodup (g : MDiGraph) (l : List String) : (ancUnion g l).Nodup :=
  List.nodup_dedup _

/-- `hasMissingTerm` is false exactly when every term of every list cell is a node. -/
lemma hasMissingTerm_eq_false {g : MDiGraph} {cells : List PyCell} :
    hasMissingTerm g cells = false ↔ ∀ c ∈ cells, ∀ t ∈ c.cellTerms, t ∈ g.nodes := by
  unfold hasMissingTerm
  rw [List.any_eq_false]
  constructor
  · intro h c hc t ht
    have := h c hc
    cases c with
    | list l =>
      simp only [List.any_eq_true, not_exists, not_and] at this
      have h2 := fun hmem => this t hmem
      simp only [PyCell.cellTerms] at ht
      have h3 := h2 ht
      simpa using h3
    | str s => simp [PyCell.cellTerms] at ht
    | nan => simp [PyCell.cellTerms] at ht
  · intro h c hc
    cases c with
    | list l =>
      simp only [List.any_eq_true, not_exists, not_and]
      intro t htl
      have := h _ hc t (by simpa [PyCell.cellTerms] using htl)
      simpa using this
    | str s => simp
    | nan => simp

/-- In the all-list, no-missing-term case `get_predecessor_terms` maps each cell
to the deduplicated ancestor union of its terms. -/
lemma get_predecessor_terms_ok {g : MDiGraph} {cells : List PyCell}
    (hlist : ∀ c ∈ cells, c.isList = true)
    (hterm : hasMissingTerm g cells = false) :
    get_predecessor_terms g cells =
      .ok (cells.map (fun c => PyCell.list (ancUnion g c.cellTerms))) := by
  have h1 : cells.any (fun c => !c.isList) = false := by
    rw [List.any_eq_false]
    intro c hc
    simp [hlist c hc]
  simp only [get_predecessor_terms, h1, Bool.false_eq_true, if_false, hterm]
  congr 1
  apply List.map_congr_left
  intro c hc
  have := hlist c hc
  cases c with
  | list l => rfl
  | str s => simp [PyCell.isList] at this
  | nan => simp [PyCell.isList] at this

/-- In the all-list case with some term missing from the graph, the exception
branch returns the input Series itself. -/
lemma get_predecessor_terms_exc {g : MDiGraph} {cells : List PyCell}
    (hlist : ∀ c ∈ cells, c.isList = true)
    (hmiss : hasMissingTerm g cells = true) :
    get_predecessor_terms g cells = .ok cells := by
  have h1 : cells.any (fun c => !c.isList) = false := by
    rw [List.any_eq_false]
    intro c hc
    simp [hlist c hc]
  simp only [get_predecessor_terms, h1, Bool.false_eq_true, if_false, hmiss, if_true]

/-- Happy path of `add_predecessor_terms`: each cell becomes its original terms
followed by the deduplicated ancestor union. -/
lemma add_predecessor_terms_ok {net : MDiGraph} {et : String} {cells : List PyCell}
    (hlist : ∀ c ∈ cells, c.isList = true)
    (hterm : hasMissingTerm ((get_subgraph (mkStore net) et).1) cells = false) :
    add_predecessor_terms net et cells =
      .ok (cells.map (fun c =>
        PyCell.list (c.cellTerms ++ ancUnion ((get_subgraph (mkStore net) et).1) c.cellTerms))) := by
  simp only [add_predecessor_terms, get_predecessor_terms_ok hlist hterm,
    List.zipWith_map_right]
  rw [List.zipWith_same]
  simp only [PyCell.cellTerms]

/-- The edge subgraph of a well-formed graph is well-formed. -/
lemma edgeSubgraphOf_wf {net : MDiGraph} (hwf : net.Wf) (et : String) :
    (edgeSubgraphOf net et).Wf := by
  intro e he
  unfold edgeSubgraphOf at he ⊢
  simp only [List.mem_filter] at he
  rcases hwf e he.1 with ⟨h1, h2⟩
  constructor <;> · simp only [List.mem_filter, List.any_eq_true]
                    exact ⟨by assumption, e, he, by simp⟩

/-- The graph `add_predecessor_terms` computes for a fresh store is well-formed
whenever the network is. -/
lemma get_subgraph_fresh_wf {net : MDiGraph} (hwf : net.Wf) (et : String) :
    ((get_subgraph (mkStore net) et).1).Wf := by
  unfold get_subgraph mkStore
  by_cases h : et = "" <;> simp [h]
  · exact hwf
  · exact edgeSubgraphOf_wf hwf et

/-- A node that properly reaches another node is an edge source, hence a node
of a well-formed graph. -/
lemma mem_nodes_of_reaches {g : MDiGraph} (hwf : g.Wf) {t s : String}
    (h : Relation.ReflTransGen (edgeRel g) t s) (hne : t ≠ s) : t ∈ g.nodes := by
  rcases Relation.ReflTransGen.cases_head h with rfl | ⟨u, ⟨k, hk⟩, _⟩
  · exact absurd rfl hne
  · exact (hwf _ hk).1

/-- Ancestors of in-graph terms are in-graph (for a well-formed graph). -/
lemma ancUnion_subset_nodes {g : MDiGraph} (hwf : g.Wf) (l : List String) :
    ∀ t ∈ ancUnion g l, t ∈ g.nodes := by
  intro t ht
  rcases mem_ancUnion.1 ht with ⟨s, _, hne, hr⟩
  exact mem_nodes_of_reaches hwf hr hne

/-- One round of ancestor propagation absorbs a second round, up to set membership. -/
lemma ancUnion_stable (g : MDiGraph) (x : List String) (t : String) :
    t ∈ (x ++ ancUnion g x) ++ ancUnion g (x ++ ancUnion g x) ↔ t ∈ x ++ ancUnion g x := by
  constructor
  · intro h
    rcases List.mem_append.1 h with h | h
    · exact h
    · rcases mem_ancUnion.1 h with ⟨s, hs, hne, hr⟩
      rcases List.mem_append.1 hs with hs | hs
      · exact List.mem_append_right _ (mem_ancUnion.2 ⟨s, hs, hne, hr⟩)
      · rcases mem_ancUnion.1 hs with ⟨u, hu, hneu, hru⟩
        by_cases htu : t = u
        · exact List.mem_append_left _ (htu ▸ hu)
        · exact List.mem_append_right _ (mem_ancUnion.2 ⟨u, hu, htu, hr.trans hru⟩)
  · exact fun h => List.mem_append_left _ h

/-- Two consecutive applications of `Ontology.add_predecessor_terms`. -/
def add_predecessor_terms_twice (net : MDiGraph) (et : String) (cells : List PyCell) :
    Except PyErr (List PyCell) :=
  (add_predecessor_terms net et cells).bind (fun out => add_predecessor_terms net et out)

/-- A two-node example network with a single edge A → B keyed "is_a". -/
def exNetAB : MDiGraph := ⟨["A", "B"], [("A", "B", "is_a")]⟩

/-- Claim C3, counterexample: on the network with the single "is_a" edge A → B,
the Series with the one cell ["A", "B"] is mapped by `add_predecessor_terms` to
["A", "B", "A"]: the ancestor "A" is appended although it is already present in
the cell, so duplicate entries ARE introduced, contrary to the claim. -/
theorem C3_duplicate_ancestor_cex :
    add_predecessor_terms exNetAB "is_a" [PyCell.list ["A", "B"]] =
      Except.ok [PyCell.list ["A", "B", "A"]] ∧
    ¬ (["A", "B", "A"] : List String).Nodup := by
  exact ⟨by decide, by decide⟩

/-- Claim C3 (amended): for a Series whose cells are all lists and whose terms
all lie in the requested relation-type subgraph, `add_predecessor_terms` maps
each cell to its original terms followed by the deduplicated proper-ancestor
closure of those terms (reachability along the subgraph's edges); an ancestor
already present in the original cell appears a second time. -/
theorem C3_add_ancestors_amended (net : MDiGraph) (et : String) (cells : List PyCell)
    (hlist : ∀ c ∈ cells, c.isList = true)
    (hterm : hasMissingTerm ((get_subgraph (mkStore net) et).1) cells = false) :
    add_predecessor_terms net et cells =
      Except.ok (cells.map (fun c =>
        PyCell.list (c.cellTerms ++ ancUnion ((get_subgraph (mkStore net) et).1) c.cellTerms))) ∧
    ∀ (l : List String) (t : String),
      (ancUnion ((get_subgraph (mkStore net) et).1) l).Nodup ∧
      (t ∈ ancUnion ((get_subgraph (mkStore net) et).1) l ↔
        ∃ s ∈ l, t ≠ s ∧
          Relation.ReflTransGen (edgeRel ((get_subgraph (mkStore net) et).1)) t s) :=
  ⟨add_predecessor_terms_ok hlist hterm, fun l _ => ⟨ancUnion_nodup _ l, mem_ancUnion⟩⟩

/-- Witness for the amended claim C3 at a concrete input. -/
theorem C3_add_ancestors_amended_witness :
    add_predecessor_terms exNetAB "is_a" [PyCell.list ["A", "B"]] =
      Except.ok ([PyCell.list ["A", "B"]].map (fun c =>
        PyCell.list (c.cellTerms ++
          ancUnion ((get_subgraph (mkStore exNetAB) "is_a").1) c.cellTerms))) :=
  (C3_add_ancestors_amended exNetAB "is_a" [PyCell.list ["A", "B"]]
    (by decide) (by decide)).1

/-- Claim C4, counterexample: ancestor propagation is not idempotent on the
nose; on the cell ["A", "B"] over the single-edge network one application
yields ["A", "B", "A"] and a second application yields ["A", "B", "A", "A"]. -/
theorem C4_not_idempotent_cex :
    add_predecessor_terms exNetAB "is_a" [PyCell.list ["A", "B"]] =
      Except.ok [PyCell.list ["A", "B", "A"]] ∧
    add_predecessor_terms_twice exNetAB "is_a" [PyCell.list ["A", "B"]] =
      Except.ok [PyCell.list ["A", "B", "A", "A"]] ∧
    add_predecessor_terms_twice exNetAB "is_a" [PyCell.list ["A", "B"]] ≠
      add_predecessor_terms exNetAB "is_a" [PyCell.list ["A", "B"]] := by
  exact ⟨by decide, by decide, by decide⟩

/-- Claim C4 (amended): applying `add_predecessor_terms` twice yields the same
result as applying it once UP TO SET OF TERMS per cell (the term sets agree;
only duplicate multiplicities differ), for Series of list cells whose terms
lie in the (well-formed) relation-type subgraph. -/
theorem C4_idempotent_up_to_sets (net : MDiGraph) (et : String) (cells : List PyCell)
    (hwf : net.Wf)
    (hlist : ∀ c ∈ cells, c.isList = true)
    (hterm : hasMissingTerm ((get_subgraph (mkStore net) et).1) cells = false) :
    ∃ out1 out2,
      add_predecessor_terms net et cells = Except.ok out1 ∧
      add_predecessor_terms_twice net et cells = Except.ok out2 ∧
      out2.length = out1.length ∧
      ∀ (i : Nat) (t : String),
        t ∈ (out2.getD i PyCell.nan).cellTerms ↔ t ∈ (out1.getD i PyCell.nan).cellTerms := by
  have hgwf : ((get_subgraph (mkStore net) et).1).Wf := get_subgraph_fresh_wf hwf et
  set g := (get_subgraph (mkStore net) et).1 with hg
  have h1 := add_predecessor_terms_ok hlist hterm
  set f1 : PyCell → PyCell :=
    fun c => PyCell.list (c.cellTerms ++ ancUnion g c.cellTerms) with hf1
  have hlist1 : ∀ c ∈ cells.map f1, c.isList = true := by
    intro c hc
    rcases List.mem_map.1 hc with ⟨c0, _, rfl⟩
    rfl
  have hterm1 : hasMissingTerm g (cells.map f1) = false := by
    rw [hasMissingTerm_eq_false]
    intro c hc t ht
    rcases List.mem_map.1 hc with ⟨c0, hc0, rfl⟩
    simp only [hf1, PyCell.cellTerms] at ht
    rcases List.mem_append.1 ht with ht | ht
    · exact (hasMissingTerm_eq_false.1 hterm) c0 hc0 t ht
    · exact ancUnion_subset_nodes hgwf _ t ht
  have h2 := add_predecessor_terms_ok hlist1 hterm1
  refine ⟨cells.map f1, (cells.map f1).map f1, h1, ?_, by simp, ?_⟩
  · unfold add_predecessor_terms_twice
    rw [h1]
    simpa using h2
  · intro i t
    by_cases hi : i < cells.length
    · have hc : cells[i]? = some cells[i] := List.getElem?_eq_getElem hi
      have e1 : (cells.map f1).getD i PyCell.nan = f1 cells[i] := by
        rw [List.getD_eq_getElem?_getD, List.getElem?_map, hc]
        rfl
      have e2 : ((cells.map f1).map f1).getD i PyCell.nan = f1 (f1 cells[i]) := by
        rw [List.getD_eq_getElem?_getD, List.getElem?_map, List.getElem?_map, hc]
        rfl
      rw [e1, e2]
      simpa [hf1, PyCell.cellTerms] using ancUnion_stable g (cells[i]).cellTerms t
    · have e1 : (cells.map f1).getD i PyCell.nan = PyCell.nan := by
        apply List.getD_eq_default
        simpa using Nat.le_of_not_lt hi
      have e2 : ((cells.map f1).map f1).getD i PyCell.nan = PyCell.nan := by
        apply List.getD_eq_default
        simpa using Nat.le_of_not_lt hi
      rw [e1, e2]

/-- Witness for the amended claim C4 at a concrete input. -/
theorem C4_idempotent_up_to_sets_witness :
    ∃ out1 out2,
      add_predecessor_terms exNetAB "is_a" [PyCell.list ["A", "B"]] = Except.ok out1 ∧
      add_predecessor_terms_twice exNetAB "is_a" [PyCell.list ["A", "B"]] = Except.ok out2 ∧
      out2.length = out1.length ∧
      ∀ (i : Nat) (t : String),
        t ∈ (out2.getD i PyCell.nan).cellTerms ↔ t ∈ (out1.getD i PyCell.nan).cellTerms :=
  C4_idempotent_up_to_sets exNetAB "is_a" [PyCell.list ["A", "B"]]
    (by decide) (by decide) (by decide)

/-- Claim C10: if every cell is a list and some term is missing from the chosen
relation-type subgraph, the ancestor computation raises inside
`get_predecessor_terms`, the exception is caught and the input Series itself is
returned, so `add_predecessor_terms` concatenates each list with itself: every
annotation list comes back doubled instead of extended with ancestors. -/
theorem C10_missing_term_returns_doubled (net : MDiGraph) (et : String)
    (cells : List PyCell)
    (hlist : ∀ c ∈ cells, c.isList = true)
    (hmiss : hasMissingTerm ((get_subgraph (mkStore net) et).1) cells = true) :
    add_predecessor_terms net et cells =
      Except.ok (cells.map (fun c => PyCell.list (c.cellTerms ++ c.cellTerms))) := by
  simp only [add_predecessor_terms, get_predecessor_terms_exc hlist hmiss]
  rw [List.zipWith_same]

/-- Witness for claim C10 at a concrete input ("C" is not in the subgraph). -/
theorem C10_missing_term_returns_doubled_witness :
    add_predecessor_terms exNetAB "is_a" [PyCell.list ["A", "B"], PyCell.list ["C"]] =
      Except.ok ([PyCell.list ["A", "B"], PyCell.list ["C"]].map
        (fun c => PyCell.list (c.cellTerms ++ c.cellTerms))) :=
  C10_missing_term_returns_doubled exNetAB "is_a"
    [PyCell.list ["A", "B"], PyCell.list ["C"]] (by decide) (by decide)

/-! ## Claims about the indentation-tree parser -/

/-- Claim C1, evaluated: on the three-line input of the claim the parser adds
the edges PARENT → CHILD, namely (IPR000001 → IPR000002, is_a) and
(IPR000001 → IPR000003, is_a) — the reverse of the claimed child → parent
orientation — and consequently `get_root_nodes` returns
{IPR000002, IPR000003} and `get_child_nodes` returns {IPR000001}, the exact
opposite of the claimed root and leaf sets. -/
theorem C1_treefile_orientation_eval :
    parse_ipr_treefile
        ["IPR000001::Root::", "--IPR000002::Child A::", "--IPR000003::Child B::"] =
      some ⟨["IPR000001", "IPR000002", "IPR000003"],
            [("IPR000001", "IPR000002", "is_a"), ("IPR000001", "IPR000003", "is_a")]⟩ ∧
    (parse_ipr_treefile
        ["IPR000001::Root::", "--IPR000002::Child A::", "--IPR000003::Child B::"]).map
        get_root_nodes = some ["IPR000002", "IPR000003"] ∧
    (parse_ipr_treefile
        ["IPR000001::Root::", "--IPR000002::Child A::", "--IPR000003::Child B::"]).map
        get_child_nodes = some ["IPR000001"] := by
  exact ⟨by decide, by decide, by decide⟩

/-- Claim C7, evaluated: when the depth drops by more than one level in one
step, the parser executes a single `del stack[-1]`, so after the chain
IPR000001 (depth 0) → IPR000002 (depth 1) → IPR000003 (depth 2) → IPR000004
(depth 3), the depth-1 line IPR000005 is attached under IPR000002 instead of
under the depth-appropriate ancestor IPR000001: the stack is NOT popped until
its height matches the new depth. -/
theorem C7_multi_level_dedent_eval :
    parse_ipr_treefile
        ["IPR000001::n1::", "--IPR000002::n2::", "----IPR000003::n3::",
         "------IPR000004::n4::", "--IPR000005::n5::"] =
      some ⟨["IPR000001", "IPR000002", "IPR000003", "IPR000004", "IPR000005"],
            [("IPR000001", "IPR000002", "is_a"), ("IPR000002", "IPR000003", "is_a"),
             ("IPR000003", "IPR000004", "is_a"), ("IPR000002", "IPR000005", "is_a")]⟩ ∧
    ("IPR000002", "IPR000005", "is_a") ∈
      ([("IPR000001", "IPR000002", "is_a"), ("IPR000002", "IPR000003", "is_a"),
        ("IPR000003", "IPR000004", "is_a"), ("IPR000002", "IPR000005", "is_a")] :
        List (String × String × String)) ∧
    ("IPR000001", "IPR000005", "is_a") ∉
      ([("IPR000001", "IPR000002", "is_a"), ("IPR000002", "IPR000003", "is_a"),
        ("IPR000003", "IPR000004", "is_a"), ("IPR000002", "IPR000005", "is_a")] :
        List (String × String × String)) := by
  exact ⟨by decide, by decide, by decide⟩

/-! ## Claim C2: reconciliation makes positive and negative cells disjoint -/

/-- After `_remove_dup_neg_go_id`, no term is in both cells of a row. -/
lemma remove_dup_disjoint (r : SplitRow) (t : String)
    (hpos : t ∈ cellOf (remove_dup_neg_go_id r).pos) :
    t ∉ cellOf (remove_dup_neg_go_id r).neg := by
  obtain ⟨src, qual, pos, neg⟩ := r
  cases pos with
  | none =>
    simp [remove_dup_neg_go_id, cellOf] at hpos
  | some p =>
    cases neg with
    | none =>
      simp [remove_dup_neg_go_id, cellOf]
    | some n =>
      have hpos2 : t ∈ p := by simpa [remove_dup_neg_go_id, cellOf] using hpos
      show t ∉ cellOf (if n.filter (fun x => !(p.contains x)) = [] then none
        else some (n.filter (fun x => !(p.contains x))))
      by_cases hk : n.filter (fun x => !(p.contains x)) = []
      · rw [if_pos hk]
        simp [cellOf]
      · rw [if_neg hk]
        show t ∉ n.filter (fun x => !(p.contains x))
        intro hmem
        have hnot := (List.mem_filter.1 hmem).2
        rw [Bool.not_eq_true'] at hnot
        have : ¬ (t ∈ p) := by simpa using hnot
        exact this hpos2

/-- Every row of a processed window has disjoint positive and negative cells. -/
lemma processWindow_disjoint (agg : List String → Option (List String))
    (rs : List GafAnn) (row : SplitRow) (hrow : row ∈ processWindow agg rs)
    (t : String) (hpos : t ∈ cellOf row.pos) : t ∉ cellOf row.neg := by
  unfold processWindow at hrow
  rw [List.mem_map] at hrow
  obtain ⟨r0, _, rfl⟩ := hrow
  exact remove_dup_disjoint r0 t hpos

/-- Claim C2: in every output row of each of the three tables returned by
`split_annotations` — for any aggregator, filters, cutoffs and input records —
the positive and negative term cells are disjoint: a term in both lists is
removed from the negative list during reconciliation (and an emptied negative
list becomes null rather than an empty list, as `remove_dup_neg_go_id`
shows). -/
theorem C2_split_outputs_disjoint (agg : List String → Option (List String))
    (fe : List String) (fd : Option (List String)) (t1 t2 : Int) (t3 : Option Int)
    (anns : List GafAnn) (tbl : List SplitRow) (row : SplitRow)
    (htbl : tbl = (split_annotations agg fe fd t1 t2 t3 anns).1 ∨
      tbl = (split_annotations agg fe fd t1 t2 t3 anns).2.1 ∨
      tbl = (split_annotations agg fe fd t1 t2 t3 anns).2.2)
    (hrow : row ∈ tbl) (t : String) (hpos : t ∈ cellOf row.pos) :
    t ∉ cellOf row.neg := by
  rcases htbl with h | h | h <;>
    · subst h
      exact processWindow_disjoint agg _ row hrow t hpos

/-- Witness for claim C2 at a concrete input: one positive and one negated
record for the same gene and term; the output row has `pos = ["GO:1"]` and a
reconciled null negative cell. -/
theorem C2_split_outputs_disjoint_witness :
    "GO:1" ∉ cellOf (SplitRow.mk "g1" "enables" (some ["GO:1"]) none).neg :=
  C2_split_outputs_disjoint uniqueAgg ["EXP"] none 0 1 (some 2)
    [⟨"g1", "GO:1", ["enables"], "EXP", 0⟩, ⟨"g1", "GO:1", ["NOT", "enables"], "EXP", 0⟩]
    _ _ (Or.inl rfl) (by decide) "GO:1" (by decide)

/-! ## Claim C5: the temporal windows -/

/-- Claim C5, counterexample: a record dated after `test_cutoff` (date 3 with
cutoffs 0 < 1 < 2) passes the evidence filter yet lands in NONE of the three
windows — it is dropped, contrary to the claim that no filtered record is
dropped. -/
theorem C5_late_record_dropped_cex :
    (GafAnn.mk "g" "GO:1" ["enables"] "EXP" 3) ∈
      filter_anns ["EXP"] none [GafAnn.mk "g" "GO:1" ["enables"] "EXP" 3] ∧
    (GafAnn.mk "g" "GO:1" ["enables"] "EXP" 3) ∉
      train_window ["EXP"] none 0 [GafAnn.mk "g" "GO:1" ["enables"] "EXP" 3] ∧
    (GafAnn.mk "g" "GO:1" ["enables"] "EXP" 3) ∉
      valid_window ["EXP"] none 0 1 [GafAnn.mk "g" "GO:1" ["enables"] "EXP" 3] ∧
    (GafAnn.mk "g" "GO:1" ["enables"] "EXP" 3) ∉
      test_window ["EXP"] none 0 1 (some 2) [GafAnn.mk "g" "GO:1" ["enables"] "EXP" 3] := by
  exact ⟨by decide, by decide, by decide, by decide⟩

/-- Claim C5 (amended): with `train_cutoff < valid_cutoff < test_cutoff`, every
record passing the evidence and dst-term filters whose timestamp is at most
`test_cutoff` lands in exactly one of the three half-open windows (records
dated after `test_cutoff` fall outside all three); and with no `test_cutoff`
the test split reuses the validation window. -/
theorem C5_window_partition_amended (fe : List String) (fd : Option (List String))
    (t1 t2 t3 : Int) (anns : List GafAnn) (r : GafAnn)
    (h12 : t1 < t2) (h23 : t2 < t3)
    (hr : r ∈ filter_anns fe fd anns) (hd : r.date ≤ t3) :
    ((r ∈ train_window fe fd t1 anns ∧ r ∉ valid_window fe fd t1 t2 anns ∧
        r ∉ test_window fe fd t1 t2 (some t3) anns) ∨
     (r ∉ train_window fe fd t1 anns ∧ r ∈ valid_window fe fd t1 t2 anns ∧
        r ∉ test_window fe fd t1 t2 (some t3) anns) ∨
     (r ∉ train_window fe fd t1 anns ∧ r ∉ valid_window fe fd t1 t2 anns ∧
        r ∈ test_window fe fd t1 t2 (some t3) anns)) ∧
    test_window fe fd t1 t2 none anns = valid_window fe fd t1 t2 anns := by
  refine ⟨?_, rfl⟩
  have htr : r ∈ train_window fe fd t1 anns ↔ r.date ≤ t1 := by
    unfold train_window
    rw [List.mem_filter]
    constructor
    · intro h
      simpa using h.2
    · intro h
      exact ⟨hr, by simpa using h⟩
  have hva : r ∈ valid_window fe fd t1 t2 anns ↔ (r.date ≤ t2 ∧ t1 < r.date) := by
    unfold valid_window
    rw [List.mem_filter]
    constructor
    · intro h
      simpa using h.2
    · intro h
      exact ⟨hr, by simpa using h⟩
  have hte : r ∈ test_window fe fd t1 t2 (some t3) anns ↔ (r.date ≤ t3 ∧ t2 < r.date) := by
    unfold test_window
    rw [List.mem_filter]
    constructor
    · intro h
      simpa using h.2
    · intro h
      exact ⟨hr, by simpa using h⟩
  rw [htr, hva, hte]
  rcases le_or_lt r.date t1 with h | h
  · exact Or.inl ⟨h, by omega, by omega⟩
  · rcases le_or_lt r.date t2 with h2 | h2
    · exact Or.inr (Or.inl ⟨by omega, ⟨h2, h⟩, by omega⟩)
    · exact Or.inr (Or.inr ⟨by omega, by omega, hd, h2⟩)

/-- Witness for the amended claim C5 at a concrete record (date 1, cutoffs
0 < 1 < 2: the record lands exactly in the validation window). -/
theorem C5_window_partition_amended_witness :
    ((GafAnn.mk "g" "GO:1" ["enables"] "EXP" 1 ∈
        train_window ["EXP"] none 0 [GafAnn.mk "g" "GO:1" ["enables"] "EXP" 1] ∧
      GafAnn.mk "g" "GO:1" ["enables"] "EXP" 1 ∉
        valid_window ["EXP"] none 0 1 [GafAnn.mk "g" "GO:1" ["enables"] "EXP" 1] ∧
      GafAnn.mk "g" "GO:1" ["enables"] "EXP" 1 ∉
        test_window ["EXP"] none 0 1 (some 2) [GafAnn.mk "g" "GO:1" ["enables"] "EXP" 1]) ∨
     (GafAnn.mk "g" "GO:1" ["enables"] "EXP" 1 ∉
        train_window ["EXP"] none 0 [GafAnn.mk "g" "GO:1" ["enables"] "EXP" 1] ∧
      GafAnn.mk "g" "GO:1" ["enables"] "EXP" 1 ∈
        valid_window ["EXP"] none 0 1 [GafAnn.mk "g" "GO:1" ["enables"] "EXP" 1] ∧
      GafAnn.mk "g" "GO:1" ["enables"] "EXP" 1 ∉
        test_window ["EXP"] none 0 1 (some 2) [GafAnn.mk "g" "GO:1" ["enables"] "EXP" 1]) ∨
     (GafAnn.mk "g" "GO:1" ["enables"] "EXP" 1 ∉
        train_window ["EXP"] none 0 [GafAnn.mk "g" "GO:1" ["enables"] "EXP" 1] ∧
      GafAnn.mk "g" "GO:1" ["enables"] "EXP" 1 ∉
        valid_window ["EXP"] none 0 1 [GafAnn.mk "g" "GO:1" ["enables"] "EXP" 1] ∧
      GafAnn.mk "g" "GO:1" ["enables"] "EXP" 1 ∈
        test_window ["EXP"] none 0 1 (some 2) [GafAnn.mk "g" "GO:1" ["enables"] "EXP" 1])) ∧
    test_window ["EXP"] none 0 1 none [GafAnn.mk "g" "GO:1" ["enables"] "EXP" 1] =
      valid_window ["EXP"] none 0 1 [GafAnn.mk "g" "GO:1" ["enables"] "EXP" 1] :=
  C5_window_partition_amended ["EXP"] none 0 1 2
    [GafAnn.mk "g" "GO:1" ["enables"] "EXP" 1] (GafAnn.mk "g" "GO:1" ["enables"] "EXP" 1)
    (by decide) (by decide) (by decide) (by decide)

/-! ## Claim C6: behaviour when no hierarchy file is recognized -/

/-- Claim C6, counterexample: with a file-resources mapping containing no
ParentChildTreeFile entry, `InterPro.load_network` silently returns the null
pair (`return None, None`), rather than failing with any error. -/
theorem C6_interpro_silent_none_cex :
    InterPro_load_network [("entry.list", FileRes.mk true true [])] =
      Except.ok none := by
  decide

/-- Claim C6 (amended): with no recognized hierarchy file, the InterPro loader
silently returns the null pair `(None, None)`, while the OBO-based
GeneOntology loader fails — not with a `FormatError`, but with an
`UnboundLocalError` from its trailing `return` of never-assigned locals. -/
theorem C6_load_network_amended (frs frs2 : List (String × FileRes))
    (readObo : List String → MDiGraph)
    (h1 : ∀ p ∈ frs, iprTreeMatch p = false)
    (h2 : ∀ p ∈ frs2, pyEndsWith p.1 ".obo" = false) :
    InterPro_load_network frs = Except.ok none ∧
    GeneOntology_load_network readObo frs2 = Except.error "UnboundLocalError" := by
  constructor
  · unfold InterPro_load_network
    have : frs.find? iprTreeMatch = none := List.find?_eq_none.2 (by
      intro p hp
      simp [h1 p hp])
    rw [this]
  · unfold GeneOntology_load_network
    have : frs2.filter (fun p => pyEndsWith p.1 ".obo") = [] := by
      rw [List.filter_eq_nil_iff]
      intro p hp
      simp [h2 p hp]
    rw [this]
    rfl

/-- Witness for the amended claim C6 at concrete file-resource mappings. -/
theorem C6_load_network_amended_witness :
    InterPro_load_network [("entry.list", FileRes.mk true true [])] = Except.ok none ∧
    GeneOntology_load_network (fun _ => MDiGraph.empty)
      [("goa_human.gaf", FileRes.mk true true [])] = Except.error "UnboundLocalError" :=
  C6_load_network_amended [("entry.list", FileRes.mk true true [])]
    [("goa_human.gaf", FileRes.mk true true [])] (fun _ => MDiGraph.empty)
    (by decide) (by decide)

/-! ## Claim C8: duplicate-prefix removal in path tables -/

/-- Claim C8, counterexample: when the strict-prefix row [A, B] comes BEFORE
the longer path [A, B, C], `filter_dfs_paths` keeps both rows — the
duplicate test uses `keep="first"`, so a prefix preceding the longer path is
never removed, contrary to the claim's "in either row order". -/
theorem C8_prefix_first_not_removed_cex :
    filter_dfs_paths 3
        [[some "A", some "B", none], [some "A", some "B", some "C"]] =
      [[some "A", some "B", none], [some "A", some "B", some "C"]] := by
  decide

/-- Claim C8 (amended): a strict-prefix row is removed exactly when it appears
AFTER the longer path in row order (`duplicated(keep="first")` marks only
later rows): any row `rj` at position `j` that agrees with an earlier row `ri`
on its first `k` columns and is null from column `k` on, while `ri` is
non-null there, fails the keep mask; and the table [[A,B,C],[A,B]] (longer
path first) collapses to [[A,B,C]]. -/
theorem C8_prefix_after_longer_removed (rows : List PathRow) (ncols i j k : Nat)
    (ri rj : PathRow)
    (hij : i < j) (hi : rows[i]? = some ri) (hj : rows[j]? = some rj)
    (hk0 : 0 < k) (hkn : k < ncols)
    (hpre : ∀ c, c < k → cellAt rj c = cellAt ri c ∧ (cellAt ri c).isSome = true)
    (hjk : cellAt rj k = none) (hik : (cellAt ri k).isSome = true) :
    pathRowKept rows ncols j rj = false ∧
    filter_dfs_paths 3 [[some "A", some "B", some "C"], [some "A", some "B", none]] =
      [[some "A", some "B", some "C"]] := by
  refine ⟨?_, by decide⟩
  unfold pathRowKept
  rw [List.all_eq_false]
  refine ⟨k - 1, List.mem_range.2 (by omega), ?_⟩
  have hsucc : k - 1 + 1 = k := by omega
  have hc := hpre (k - 1) (by omega)
  have h1 : (cellAt rj (k - 1)).isSome = true := by
    rw [hc.1]
    exact hc.2
  have h2 : ((rows.take j).any fun p => cellAt p (k - 1) == cellAt rj (k - 1)) = true := by
    rw [List.any_eq_true]
    refine ⟨ri, ?_, ?_⟩
    · have h4 : (rows.take j).get? i = some ri := by
        rw [List.get?_eq_getElem?, List.getElem?_take_of_lt hij]
        exact hi
      exact List.get?_mem h4
    · rw [hc.1]
      exact beq_self_eq_true _
  have h3 : (cellAt rj (k - 1 + 1)).isNone = true := by
    rw [hsucc, hjk]
    rfl
  rw [h1, h2, h3]
  decide

/-- Witness for the amended claim C8: in the table with [A,B,C] first and its
strict prefix [A,B] second, the prefix row fails the keep mask. -/
theorem C8_prefix_after_longer_removed_witness :
    pathRowKept [[some "A", some "B", some "C"], [some "A", some "B", none]] 3 1
      [some "A", some "B", none] = false ∧
    filter_dfs_paths 3 [[some "A", some "B", some "C"], [some "A", some "B", none]] =
      [[some "A", some "B", some "C"]] :=
  C8_prefix_after_longer_removed
    [[some "A", some "B", some "C"], [some "A", some "B", none]] 3 0 1 2
    [some "A", some "B", some "C"] [some "A", some "B", none]
    (by decide) (by decide) (by decide) (by decide) (by decide)
    (by intro c hc
        interval_cases c <;> exact ⟨by decide, by decide⟩)
    (by decide) (by decide)

/-! ## Claim C9: `get_subgraph` semantics and memoization -/

/-- A three-node multigraph whose edge keys are "regulates" and
"negatively_regulates". -/
def exNetReg : MDiGraph :=
  ⟨["X", "Y", "Z"], [("X", "Y", "regulates"), ("Y", "Z", "negatively_regulates")]⟩

/-- Claim C9, counterexample: requesting the single relation type
"negatively_regulates" returns a subgraph that ALSO contains the edge keyed
"regulates", because the membership test `k in edge_types` is a Python
substring test when `edge_types` is a string — the result is not the set of
edges whose key is among the requested types. -/
theorem C9_substring_key_cex :
    ((get_subgraph (mkStore exNetReg) "negatively_regulates").1).edges =
      [("X", "Y", "regulates"), ("Y", "Z", "negatively_regulates")] ∧
    "regulates" ≠ "negatively_regulates" := by
  exact ⟨by decide, by decide⟩

/-- `List.lookup` on an appended singleton when the key is absent up front. -/
lemma lookup_append_singleton {α β : Type} [BEq α] [LawfulBEq α]
    (l : List (α × β)) (a : α) (b : β) (h : List.lookup a l = none) :
    List.lookup a (l ++ [(a, b)]) = some b := by
  induction l with
  | nil => simp [List.lookup]
  | cons p rest ih =>
    rw [List.cons_append, List.lookup]
    rw [List.lookup] at h
    by_cases hpa : a == p.1
    · rw [hpa] at h
      simp at h
    · rw [Bool.of_not_eq_true hpa] at h ⊢
      simp only []
      exact ih h

/-- After any `get_subgraph` call, the returned store caches the returned
graph under the requested key. -/
lemma get_subgraph_caches (st : OntStore) (et : String) :
    List.lookup et ((get_subgraph st et).2).subgraphs = some (get_subgraph st et).1 ∧
    ((get_subgraph st et).2).subgraphsInit = true := by
  unfold get_subgraph
  cases hinit : st.subgraphsInit with
  | false =>
    simp only [Bool.false_eq_true, if_false]
    simp [List.lookup]
  | true =>
    simp only [if_true]
    cases hc : List.lookup et st.subgraphs with
    | some g0 => simp [hc, hinit]
    | none =>
      simp only [hc]
      refine ⟨lookup_append_singleton _ _ _ hc, ?_⟩
      first
      | rfl
      | trivial

/-- A `get_subgraph` call on a store whose cache holds the key returns the
cached graph and leaves the store unchanged. -/
lemma get_subgraph_hit (st : OntStore) (et : String) (g : MDiGraph)
    (hinit : st.subgraphsInit = true) (hl : List.lookup et st.subgraphs = some g) :
    get_subgraph st et = (g, st) := by
  unfold get_subgraph
  rw [hinit]
  simp [hl]

/-- Claim C9 (amended): for a single-string `edge_types` on a fresh store, the
computed subgraph holds exactly the edges whose key is a SUBSTRING of
`edge_types` (with their endpoint nodes); a non-multigraph network is
returned unchanged; and the result is memoized under the `edge_types` key, so
the identical graph is returned — with no recomputation — even after
`filter_network` has narrowed the canonical network. -/
theorem C9_get_subgraph_amended (st : OntStore) (et : String) (terms : List String)
    (h0 : et ≠ "") :
    (st.isMulti = true → st.subgraphsInit = false →
      ∀ e, e ∈ ((get_subgraph st et).1).edges ↔
        e ∈ st.network.edges ∧ pyIn e.2.2 et = true) ∧
    (st.isMulti = false → st.subgraphsInit = false →
      (get_subgraph st et).1 = st.network) ∧
    (∀ g st2, get_subgraph st et = (g, st2) →
      get_subgraph (filter_network st2 terms) et = (g, filter_network st2 terms)) := by
  refine ⟨?_, ?_, ?_⟩
  · intro hm hinit e
    unfold get_subgraph
    rw [hinit]
    simp only [Bool.false_eq_true, if_false, hm]
    simp [h0, edgeSubgraphOf, List.mem_filter]
  · intro hm hinit
    unfold get_subgraph
    rw [hinit]
    simp [h0, hm]
  · intro g st2 hcall
    have h1 := get_subgraph_caches st et
    rw [hcall] at h1
    exact get_subgraph_hit (filter_network st2 terms) et g h1.2 h1.1

/-- Witness for the amended claim C9 on a concrete fresh store. -/
theorem C9_get_subgraph_amended_witness :
    ((mkStore exNetReg).isMulti = true → (mkStore exNetReg).subgraphsInit = false →
      ∀ e, e ∈ ((get_subgraph (mkStore exNetReg) "is_a").1).edges ↔
        e ∈ (mkStore exNetReg).network.edges ∧ pyIn e.2.2 "is_a" = true) ∧
    ((mkStore exNetReg).isMulti = false → (mkStore exNetReg).subgraphsInit = false →
      (get_subgraph (mkStore exNetReg) "is_a").1 = (mkStore exNetReg).network) ∧
    (∀ g st2, get_subgraph (mkStore exNetReg) "is_a" = (g, st2) →
      get_subgraph (filter_network st2 ["X"]) "is_a" = (g, filter_network st2 ["X"])) :=
  C9_get_subgraph_amended (mkStore exNetReg) "is_a" ["X"] (by decide)

end OpenOmics
